import Mathlib

/-!
Verification of the numeric kernel of the jinx-theorem repository.

The development shallowly embeds the two pipelines of the repository:

* `diagdevice.py`: the resonance scorer `compute_spectral_coherence`, which
  measures how far the square root of an integer lies from the nearest
  integer and aggregates cosines of that phase offset over five fixed
  reference frequencies (the `GAMMAS` list).  The Python code works with
  100-digit `Decimal` square roots and double-precision cosines; the
  embedding uses exact real arithmetic, which agrees with the source on
  every property proved below (the margins involved are astronomically
  larger than the `Decimal`/`float` rounding errors).  The `try/except`
  block of the source succeeds exactly when `n ≥ 0` (`Decimal.sqrt` raises
  `InvalidOperation` on negative inputs and nothing else in the block can
  raise), so the body is embedded as an `Option`-valued function which is
  `none` exactly on negative inputs, and the handler turns `none` into `0.0`.

* `jinx_square.py` and `millionaire_scan.py`: each script builds a 0/1
  indicator vector (perfect squares, resp. a sieve of Eratosthenes),
  normalizes it to unit Euclidean norm (twice, the second normalization
  being an idempotent guard), applies a quantum Fourier transform block
  and reads the squared magnitudes of the resulting statevector.  The
  indicator builders are embedded as executable functions producing exact
  `ℚ` entries (the float values involved, 0.0 and 1.0, are exact).  The
  transform block is embedded as the unitary discrete Fourier transform of
  order `N` in its natural index ordering: Qiskit's `QFT(do_swaps=False)`
  differs from it only by the final qubit-swap network, i.e. by a fixed
  permutation of output indices, and every property proved below (totals
  over all indices, input-side behaviour, and the comparison of the two
  scripts, which use the identical construct) is invariant under index
  permutation; this is also the index convention the specification itself
  assigns to the transform.

Embedding conventions for `numpy` constructs: the slice assignment
`p[i*i::i] = False` is embedded as a pointwise update on the exact index
set it touches (`{j | i ∣ j ∧ i*i ≤ j}`), and `int(n**0.5)` /
`int(np.sqrt(n-1))` as `Nat.sqrt` (exact for every input size the scripts
use).  Arrays are embedded as `List ℚ` built by mapping the final state
function over `List.range n`; out-of-range reads never occur in the
embedded loops, matching the source where every touched index is below `n`.
-/

namespace DiagDevice

/-- Riemann zeta zero imaginary parts used as reference frequencies, the
exact rational values of the `Decimal` literals in `diagdevice.py`. -/
def GAMMAS : List ℝ := [14.134725, 21.022040, 25.010857, 30.424876, 32.935061]

/-- Rounding to the nearest integer with ties going away from zero:
`Decimal.to_integral_value(rounding="ROUND_HALF_UP")`. -/
noncomputable def roundHalfUp (x : ℝ) : ℤ :=
  if 0 ≤ x then ⌊x + 1 / 2⌋ else -⌊-x + 1 / 2⌋

/-- Body of the `try` block of `compute_spectral_coherence`.  The block
succeeds exactly when `n ≥ 0`: `Decimal(n).sqrt()` raises on negative
input, and no other statement of the block can raise. -/
noncomputable def coherence_try (n : ℤ) : Option ℝ :=
  if 0 ≤ n then
    some (
      let root : ℝ := Real.sqrt (n : ℝ)
      let nearest_square_root : ℤ := roundHalfUp root
      let phase_offset : ℝ := |root - (nearest_square_root : ℝ)|
      let resonances : List ℝ := GAMMAS.map fun gamma => Real.cos (gamma * phase_offset)
      resonances.sum / (resonances.length : ℝ))
  else none

/-- Resonance scorer of `diagdevice.py`: the `except` handler converts a
failed computation into the degenerate score `0.0`. -/
noncomputable def compute_spectral_coherence (n : ℤ) : ℝ :=
  (coherence_try n).getD 0

/-- Phase offset of a non-negative integer: distance from its real square
root to the nearest integer (ties rounded up). -/
noncomputable def phaseOffset (n : ℤ) : ℝ :=
  |Real.sqrt (n : ℝ) - (roundHalfUp (Real.sqrt (n : ℝ)) : ℝ)|

end DiagDevice

namespace JinxSquare

/-- One pass of the marking loop body `field[i*i] = 1.0` of `get_squares`
in `jinx_square.py`. -/
def markSquare (field : ℕ → ℚ) (i : ℕ) : ℕ → ℚ :=
  fun j => if j = i * i then 1 else field j

/-- State of the square field after the loop `for i in range(1, limit + 1)`
of `get_squares`, starting from `np.zeros(n)`. -/
def squaresField (limit : ℕ) : ℕ → ℚ :=
  (List.range' 1 limit).foldl markSquare fun _ => 0

/-- Square-indicator builder `get_squares(n)` of `jinx_square.py`:
`limit = int(np.sqrt(n - 1))`, then mark `i*i` for `1 ≤ i ≤ limit`.
Every marked index satisfies `i*i ≤ n - 1 < n`, so the embedded pointwise
updates touch exactly the indices the source writes. -/
def get_squares (n : ℕ) : List ℚ :=
  (List.range n).map (squaresField (Nat.sqrt (n - 1)))

/-- Euclidean norm `norm = np.linalg.norm(data)` of `jinx_square.py`. -/
noncomputable def norm {N : ℕ} (v : Fin N → ℚ) : ℝ :=
  Real.sqrt ((∑ j, v j * v j : ℚ))

/-- First normalization `state_vector = data / norm`. -/
noncomputable def state_vector {N : ℕ} (v : Fin N → ℚ) : Fin N → ℝ :=
  fun j => (v j : ℝ) / norm v

/-- Defensive second normalization
`state_vector = state_vector / np.sqrt(np.sum(np.abs(state_vector)**2))`. -/
noncomputable def state_vector2 {N : ℕ} (v : Fin N → ℚ) : Fin N → ℝ :=
  fun j => state_vector v j / Real.sqrt (∑ i, |state_vector v i| ^ 2)

/-- Fourier-transform block `QFT(num_qubits=n_qubits, do_swaps=False)`
acting on the initialized statevector: the unitary discrete Fourier
transform of order `N` (see the file header on index ordering). -/
noncomputable def qft_block {N : ℕ} (u : Fin N → ℂ) : Fin N → ℂ :=
  fun k => (∑ j, u j *
    Complex.exp (2 * Real.pi * Complex.I * (((j : ℕ) : ℂ) * ((k : ℕ) : ℂ)) / N)) /
      ((Real.sqrt N : ℝ) : ℂ)

/-- Power spectrum `res = np.abs(sv.data)**2` of the transformed state. -/
noncomputable def res {N : ℕ} (v : Fin N → ℚ) : Fin N → ℝ :=
  fun k => Complex.normSq (qft_block (fun j => ((state_vector2 v j : ℝ) : ℂ)) k)

end JinxSquare

namespace MillionaireScan

/-- Effect of the slice assignment `p[i*i::i] = False` in `get_primes` of
`millionaire_scan.py`: the touched indices are exactly the multiples of
`i` that are at least `i*i`. -/
def sieveMark (i : ℕ) (p : ℕ → Bool) : ℕ → Bool :=
  fun j => if i ∣ j ∧ i * i ≤ j then false else p j

/-- Body of the sieve loop: `if p[i]: p[i*i::i] = False`. -/
def sieveStep (p : ℕ → Bool) (i : ℕ) : ℕ → Bool :=
  if p i then sieveMark i p else p

/-- Initial sieve state: `np.ones(n, bool)` followed by `p[:2] = False`
(the slice assignment is total even for `n < 2`, since slices clamp). -/
def sieveInit : ℕ → Bool := fun j => decide (2 ≤ j)

/-- Sieve state after the loop `for i in range(2, int(n**0.5) + 1)`, i.e.
after processing `i = 2, ..., m` where `m = Nat.sqrt n`. -/
def sieveUpTo (m : ℕ) : ℕ → Bool :=
  (List.range' 2 (m - 1)).foldl sieveStep sieveInit

/-- Prime-indicator builder `get_primes(n)` of `millionaire_scan.py`:
sieve of Eratosthenes followed by `p.astype(np.float64)`. -/
def get_primes (n : ℕ) : List ℚ :=
  (List.range n).map fun j => if sieveUpTo (Nat.sqrt n) j then 1 else 0

/-- Euclidean norm `norm = np.linalg.norm(data)` of `millionaire_scan.py`. -/
noncomputable def norm {N : ℕ} (v : Fin N → ℚ) : ℝ :=
  Real.sqrt ((∑ j, v j * v j : ℚ))

/-- First normalization `state_vector = data / norm`. -/
noncomputable def state_vector {N : ℕ} (v : Fin N → ℚ) : Fin N → ℝ :=
  fun j => (v j : ℝ) / norm v

/-- Defensive second normalization
`state_vector = state_vector / np.sqrt(np.sum(np.abs(state_vector)**2))`. -/
noncomputable def state_vector2 {N : ℕ} (v : Fin N → ℚ) : Fin N → ℝ :=
  fun j => state_vector v j / Real.sqrt (∑ i, |state_vector v i| ^ 2)

/-- Fourier-transform block `QFT(num_qubits=n_qubits, do_swaps=False)`
acting on the initialized statevector: the unitary discrete Fourier
transform of order `N` (see the file header on index ordering). -/
noncomputable def qft_block {N : ℕ} (u : Fin N → ℂ) : Fin N → ℂ :=
  fun k => (∑ j, u j *
    Complex.exp (2 * Real.pi * Complex.I * (((j : ℕ) : ℂ) * ((k : ℕ) : ℂ)) / N)) /
      ((Real.sqrt N : ℝ) : ℂ)

/-- Power spectrum `res = np.abs(sv.data)**2` of the transformed state. -/
noncomputable def res {N : ℕ} (v : Fin N → ℚ) : Fin N → ℝ :=
  fun k => Complex.normSq (qft_block (fun j => ((state_vector2 v j : ℝ) : ℂ)) k)

end MillionaireScan

namespace DiagDevice

theorem coherence_try_of_nonneg {n : ℤ} (hn : 0 ≤ n) :
    coherence_try n =
      some ((GAMMAS.map fun gamma => Real.cos (gamma * phaseOffset n)).sum /
        ((GAMMAS.map fun gamma => Real.cos (gamma * phaseOffset n)).length : ℝ)) := by
  simp only [coherence_try, if_pos hn, phaseOffset]

theorem score_eq_of_nonneg {n : ℤ} (hn : 0 ≤ n) :
    compute_spectral_coherence n =
      (Real.cos (14.134725 * phaseOffset n) + Real.cos (21.022040 * phaseOffset n) +
        Real.cos (25.010857 * phaseOffset n) + Real.cos (30.424876 * phaseOffset n) +
        Real.cos (32.935061 * phaseOffset n)) / 5 := by
  rw [compute_spectral_coherence, coherence_try_of_nonneg hn]
  simp [GAMMAS]
  ring

theorem phaseOffset_sq (k : ℕ) : phaseOffset ((k : ℤ) ^ 2) = 0 := by
  have hroot : Real.sqrt (((k : ℤ) ^ 2 : ℤ) : ℝ) = (k : ℝ) := by
    push_cast
    exact Real.sqrt_sq (by positivity)
  have hfloor : ⌊(k : ℝ) + 1 / 2⌋ = (k : ℤ) := by
    rw [Int.floor_eq_iff]
    constructor
    · push_cast; linarith
    · push_cast; linarith
  simp only [phaseOffset, hroot, roundHalfUp, if_pos (by positivity : (0:ℝ) ≤ (k:ℝ)), hfloor]
  simp

/-- C1: for every non-negative perfect-square input `n = k^2` (including
`n = 0` and `n = 1`), `compute_spectral_coherence n` returns exactly `1.0`:
the phase offset `|sqrt n - round_half_up (sqrt n)|` is `0` and every
cosine term equals `1`. -/
theorem perfect_square_score_one (k : ℕ) :
    DiagDevice.phaseOffset ((k : ℤ) ^ 2) = 0 ∧
      DiagDevice.compute_spectral_coherence ((k : ℤ) ^ 2) = 1 := by
  refine ⟨DiagDevice.phaseOffset_sq k, ?_⟩
  rw [DiagDevice.score_eq_of_nonneg (by positivity), DiagDevice.phaseOffset_sq k]
  norm_num

/-- C3: whenever the arithmetic succeeds (the `try` body does not raise,
i.e. `n ≥ 0`), the returned value is the arithmetic mean of
`cos (gamma * phase_offset)` over the five reference frequencies, and
therefore lies in `[-1, 1]`. -/
theorem score_is_mean_and_bounded (n : ℤ) (hn : 0 ≤ n) :
    DiagDevice.compute_spectral_coherence n =
      ((DiagDevice.GAMMAS.map fun gamma =>
          Real.cos (gamma * DiagDevice.phaseOffset n)).sum /
        ((DiagDevice.GAMMAS.map fun gamma =>
          Real.cos (gamma * DiagDevice.phaseOffset n)).length : ℝ)) ∧
      -1 ≤ DiagDevice.compute_spectral_coherence n ∧
        DiagDevice.compute_spectral_coherence n ≤ 1 := by
  refine ⟨by rw [DiagDevice.compute_spectral_coherence,
    DiagDevice.coherence_try_of_nonneg hn, Option.getD_some], ?_, ?_⟩
  · rw [DiagDevice.score_eq_of_nonneg hn]
    have h1 := Real.neg_one_le_cos (14.134725 * DiagDevice.phaseOffset n)
    have h2 := Real.neg_one_le_cos (21.022040 * DiagDevice.phaseOffset n)
    have h3 := Real.neg_one_le_cos (25.010857 * DiagDevice.phaseOffset n)
    have h4 := Real.neg_one_le_cos (30.424876 * DiagDevice.phaseOffset n)
    have h5 := Real.neg_one_le_cos (32.935061 * DiagDevice.phaseOffset n)
    linarith
  · rw [DiagDevice.score_eq_of_nonneg hn]
    have h1 := Real.cos_le_one (14.134725 * DiagDevice.phaseOffset n)
    have h2 := Real.cos_le_one (21.022040 * DiagDevice.phaseOffset n)
    have h3 := Real.cos_le_one (25.010857 * DiagDevice.phaseOffset n)
    have h4 := Real.cos_le_one (30.424876 * DiagDevice.phaseOffset n)
    have h5 := Real.cos_le_one (32.935061 * DiagDevice.phaseOffset n)
    linarith

/-- Witness for C3 at the concrete input `n = 2`. -/
theorem score_is_mean_and_bounded_witness :
    (0 : ℤ) ≤ 2 ∧
      (DiagDevice.compute_spectral_coherence 2 =
        ((DiagDevice.GAMMAS.map fun gamma =>
            Real.cos (gamma * DiagDevice.phaseOffset 2)).sum /
          ((DiagDevice.GAMMAS.map fun gamma =>
            Real.cos (gamma * DiagDevice.phaseOffset 2)).length : ℝ)) ∧
        -1 ≤ DiagDevice.compute_spectral_coherence 2 ∧
          DiagDevice.compute_spectral_coherence 2 ≤ 1) :=
  ⟨by norm_num, score_is_mean_and_bounded 2 (by norm_num)⟩

/-- C8: on every input where the score arithmetic raises (the `try` body
fails, which happens exactly on negative `n`, where the `Decimal` square
root is undefined), the exception is caught and the degenerate score `0.0`
is returned. -/
theorem score_error_returns_zero (n : ℤ) :
    (DiagDevice.coherence_try n = none ↔ n < 0) ∧
      (DiagDevice.coherence_try n = none →
        DiagDevice.compute_spectral_coherence n = 0) := by
  constructor
  · constructor
    · intro h
      by_contra hlt
      rw [DiagDevice.coherence_try, if_pos (by omega)] at h
      exact Option.some_ne_none _ h
    · intro h
      rw [DiagDevice.coherence_try, if_neg (by omega)]
  · intro h
    rw [DiagDevice.compute_spectral_coherence, h, Option.getD_none]

/-- Witness for C8 at the concrete input `n = -1`. -/
theorem score_error_returns_zero_witness :
    DiagDevice.coherence_try (-1) = none ∧
      DiagDevice.compute_spectral_coherence (-1) = 0 := by
  have h : DiagDevice.coherence_try (-1) = none :=
    (score_error_returns_zero (-1)).1.mpr (by norm_num)
  exact ⟨h, (score_error_returns_zero (-1)).2 h⟩

end DiagDevice

namespace JinxSquare

theorem squaresField_succ (L : ℕ) :
    squaresField (L + 1) = markSquare (squaresField L) (1 + L) := by
  rw [squaresField, squaresField]
  have h := @List.range'_concat 1 1 L
  simp only [one_mul] at h
  rw [h, List.foldl_append]
  rfl

theorem squaresField_eq_one {L j : ℕ} (h : ∃ i, 1 ≤ i ∧ i ≤ L ∧ i * i = j) :
    squaresField L j = 1 := by
  induction L with
  | zero =>
    obtain ⟨i, h1, h2, _⟩ := h
    omega
  | succ L ih =>
    obtain ⟨i, h1, h2, h3⟩ := h
    rw [squaresField_succ, markSquare]
    by_cases hj : j = (1 + L) * (1 + L)
    · rw [if_pos hj]
    · rw [if_neg hj]
      refine ih ⟨i, h1, ?_, h3⟩
      rcases Nat.eq_or_lt_of_le h2 with heq | hlt
      · exact absurd (by rw [← h3, heq]; ring) hj
      · omega

theorem squaresField_eq_zero {L j : ℕ} (h : ∀ i, 1 ≤ i → i ≤ L → i * i ≠ j) :
    squaresField L j = 0 := by
  induction L with
  | zero => rfl
  | succ L ih =>
    rw [squaresField_succ, markSquare]
    rw [if_neg fun hj => h (L + 1) (by omega) (by omega) (by rw [hj]; ring)]
    exact ih fun i h1 h2 => h i h1 (by omega)

/-- C5: the PERFECT_SQUARE builder returns a length-`n` vector with `1.0`
exactly at the indices `i*i` for every integer `i` with
`1 ≤ i ≤ ⌊√(n-1)⌋` and `0.0` at every other index, including index `0`;
in particular `get_squares 17` sets exactly indices `{1, 4, 9, 16}` to
`1.0`. -/
theorem get_squares_spec :
    (∀ n j, 1 ≤ n → j < n →
      (JinxSquare.get_squares n).length = n ∧
      ((∃ i, 1 ≤ i ∧ i ≤ Nat.sqrt (n - 1) ∧ i * i = j) →
        (JinxSquare.get_squares n)[j]? = some 1) ∧
      ((∀ i, 1 ≤ i → i ≤ Nat.sqrt (n - 1) → i * i ≠ j) →
        (JinxSquare.get_squares n)[j]? = some 0)) ∧
    (List.range 17).filter
        (fun j => decide ((JinxSquare.get_squares 17)[j]? = some (1 : ℚ))) =
      [1, 4, 9, 16] := by
  constructor
  · intro n j _ hj
    refine ⟨by simp [get_squares], ?_, ?_⟩
    · intro h
      rw [get_squares, List.getElem?_map, List.getElem?_range hj, Option.map_some']
      rw [squaresField_eq_one h]
    · intro h
      rw [get_squares, List.getElem?_map, List.getElem?_range hj, Option.map_some']
      rw [squaresField_eq_zero h]
  · have h16 : Nat.sqrt 16 = 4 := (Nat.eq_sqrt.mpr (by norm_num)).symm
    simp only [get_squares, show (17 : ℕ) - 1 = 16 by norm_num, h16]
    decide

/-- Witness for C5: at `n = 17`, index `9 = 3*3` carries `1.0` and index
`7` carries `0.0`. -/
theorem get_squares_spec_witness :
    ((1 ≤ 17 ∧ 9 < 17) ∧ (JinxSquare.get_squares 17)[9]? = some 1) ∧
      ((JinxSquare.get_squares 17)[7]? = some 0) :=
  ⟨⟨⟨by norm_num, by norm_num⟩,
      (get_squares_spec.1 17 9 (by norm_num) (by norm_num)).2.1 ⟨3, by norm_num, by norm_num, by norm_num⟩⟩,
    (get_squares_spec.1 17 7 (by norm_num) (by norm_num)).2.2 (by
      intro i h1 h2
      rw [show (17 : ℕ) - 1 = 16 by norm_num,
        show Nat.sqrt 16 = 4 from (Nat.eq_sqrt.mpr (by norm_num)).symm] at h2
      interval_cases i <;> omega)⟩

end JinxSquare

namespace MillionaireScan

theorem sieveUpTo_le_one {m : ℕ} (hm : m ≤ 1) : sieveUpTo m = sieveInit := by
  rw [sieveUpTo]
  interval_cases m <;> rfl

theorem sieveUpTo_succ {m : ℕ} (hm : 1 ≤ m) :
    sieveUpTo (m + 1) = sieveStep (sieveUpTo m) (m + 1) := by
  rw [sieveUpTo, sieveUpTo, show m + 1 - 1 = (m - 1) + 1 by omega]
  have h := @List.range'_concat 1 2 (m - 1)
  simp only [one_mul] at h
  rw [h, List.foldl_append, show 2 + (m - 1) = m + 1 by omega]
  rfl

theorem sieveUpTo_eq (m j : ℕ) :
    sieveUpTo m j = true ↔
      2 ≤ j ∧ ∀ d, 2 ≤ d → d ≤ m → ¬(d ∣ j ∧ d * d ≤ j) := by
  induction m generalizing j with
  | zero =>
    rw [sieveUpTo_le_one (by omega), sieveInit]
    simp only [decide_eq_true_eq]
    exact ⟨fun h => ⟨h, fun d h2 h0 => by omega⟩, fun h => h.1⟩
  | succ m ih =>
    rcases Nat.eq_zero_or_pos m with hm | hm
    · subst hm
      rw [sieveUpTo_le_one (by omega), sieveInit]
      simp only [decide_eq_true_eq]
      exact ⟨fun h => ⟨h, fun d h2 h1 => by omega⟩, fun h => h.1⟩
    · rw [sieveUpTo_succ hm, sieveStep]
      by_cases hg : sieveUpTo m (m + 1) = true
      · rw [if_pos hg, sieveMark]
        by_cases hc : (m + 1) ∣ j ∧ (m + 1) * (m + 1) ≤ j
        · rw [if_pos hc]
          simp only [Bool.false_eq_true, false_iff]
          rintro ⟨-, hall⟩
          exact hall (m + 1) (by omega) (le_refl _) hc
        · rw [if_neg hc, ih j]
          constructor
          · rintro ⟨h2j, hall⟩
            refine ⟨h2j, fun d hd2 hdm hcond => ?_⟩
            rcases Nat.eq_or_lt_of_le hdm with heq | hlt
            · exact hc (heq ▸ hcond)
            · exact hall d hd2 (by omega) hcond
          · rintro ⟨h2j, hall⟩
            exact ⟨h2j, fun d hd2 hdm => hall d hd2 (by omega)⟩
      · rw [if_neg hg, ih j]
        have hwit : ∃ d, 2 ≤ d ∧ d ≤ m ∧ d ∣ (m + 1) ∧ d * d ≤ m + 1 := by
          have h := (ih (m + 1)).not.mp (by simpa using hg)
          push_neg at h
          obtain ⟨d, hd2, hdm, hcond⟩ := h (by omega)
          exact ⟨d, hd2, hdm, hcond.1, hcond.2⟩
        constructor
        · rintro ⟨h2j, hall⟩
          refine ⟨h2j, fun d hd2 hdm hcond => ?_⟩
          rcases Nat.eq_or_lt_of_le hdm with heq | hlt
          · obtain ⟨d0, hd02, hd0m, hd0dvd, hd0sq⟩ := hwit
            refine hall d0 hd02 hd0m ⟨hd0dvd.trans (heq ▸ hcond.1), ?_⟩
            calc d0 * d0 ≤ m + 1 := hd0sq
              _ ≤ (m + 1) * (m + 1) := Nat.le_mul_of_pos_left _ (by omega)
              _ = d * d := by rw [heq]
              _ ≤ j := hcond.2
          · exact hall d hd2 (by omega) hcond
        · rintro ⟨h2j, hall⟩
          exact ⟨h2j, fun d hd2 hdm => hall d hd2 (by omega)⟩

theorem sieve_prime_iff {n j : ℕ} (hj : j < n) :
    sieveUpTo (Nat.sqrt n) j = true ↔ j.Prime := by
  rw [sieveUpTo_eq]
  constructor
  · rintro ⟨h2, hall⟩
    by_contra hnp
    have hd := Nat.minFac_dvd j
    have hdp : (Nat.minFac j).Prime := Nat.minFac_prime (by omega)
    have hsq : Nat.minFac j * Nat.minFac j ≤ j := by
      have := Nat.minFac_sq_le_self (by omega) hnp
      nlinarith [this]
    have hdm : Nat.minFac j ≤ Nat.sqrt n := Nat.le_sqrt.mpr (by omega)
    exact hall _ hdp.two_le hdm ⟨hd, hsq⟩
  · intro hp
    refine ⟨hp.two_le, ?_⟩
    rintro d h2d hdm ⟨hdvd, hsq⟩
    rcases (Nat.Prime.eq_one_or_self_of_dvd hp d hdvd) with h | h
    · omega
    · subst h
      have := hp.two_le
      nlinarith

/-- C4: the PRIME builder returns a length-`n` vector that is `1.0` exactly
at the prime indices below `n` and `0.0` elsewhere, with indices `0` and
`1` forced non-prime, computed by a sieve of Eratosthenes unmarking, for
every still-marked `i` up to the integer square root, the multiples of `i`
from `i*i` on; in particular `get_primes 100` marks exactly the 25 primes
below 100. -/
theorem get_primes_spec :
    (∀ n j, j < n →
      (MillionaireScan.get_primes n).length = n ∧
      (MillionaireScan.get_primes n)[j]? = some (if Nat.Prime j then (1 : ℚ) else 0)) ∧
    (List.range 100).filter
        (fun j => decide ((MillionaireScan.get_primes 100)[j]? = some (1 : ℚ))) =
      [2, 3, 5, 7, 11, 13, 17, 19, 23, 29, 31, 37, 41, 43, 47, 53, 59, 61, 67,
        71, 73, 79, 83, 89, 97] := by
  have hgen : ∀ n j, j < n →
      (get_primes n)[j]? = some (if Nat.Prime j then (1 : ℚ) else 0) := by
    intro n j hj
    rw [get_primes, List.getElem?_map, List.getElem?_range hj, Option.map_some']
    congr 1
    by_cases hp : j.Prime
    · rw [if_pos ((sieve_prime_iff hj).mpr hp), if_pos hp]
    · rw [if_neg fun h => hp ((sieve_prime_iff hj).mp h), if_neg hp]
  refine ⟨fun n j hj => ⟨by simp [get_primes], hgen n j hj⟩, ?_⟩
  have h100 : Nat.sqrt 100 = 10 := (Nat.eq_sqrt.mpr (by norm_num)).symm
  simp only [get_primes, h100]
  decide

/-- Witness for C4: at `n = 10`, index `7` is prime and carries `1.0`. -/
theorem get_primes_spec_witness :
    (7 < 10) ∧ (MillionaireScan.get_primes 10).length = 10 ∧
      (MillionaireScan.get_primes 10)[7]? = some (if Nat.Prime 7 then (1 : ℚ) else 0) :=
  ⟨by norm_num, (get_primes_spec.1 10 7 (by norm_num)).1,
    (get_primes_spec.1 10 7 (by norm_num)).2⟩

end MillionaireScan

/-- C9: the normalize–transform–power pipeline of `jinx_square.py` and the
one of `millionaire_scan.py` compute the same function of the input
indicator vector, stage by stage: the two scripts are two copies of a
single spectral-transform engine. -/
theorem pipelines_equal :
    (∀ (N : ℕ) (v : Fin N → ℚ),
      JinxSquare.norm v = MillionaireScan.norm v ∧
      JinxSquare.state_vector v = MillionaireScan.state_vector v ∧
      JinxSquare.state_vector2 v = MillionaireScan.state_vector2 v ∧
      JinxSquare.res v = MillionaireScan.res v) ∧
    (∀ (N : ℕ) (u : Fin N → ℂ),
      JinxSquare.qft_block u = MillionaireScan.qft_block u) :=
  ⟨fun _ _ => ⟨rfl, rfl, rfl, rfl⟩, fun _ _ => rfl⟩

namespace MillionaireScan

theorem get_primes_replicate_of_le_two {n : ℕ} (hn : n ≤ 2) :
    get_primes n = List.replicate n 0 := by
  have h1 : Nat.sqrt 1 = 1 := by simp
  have h2 : Nat.sqrt 2 = 1 := (Nat.eq_sqrt.mpr (by norm_num)).symm
  interval_cases n
  · rfl
  · rw [get_primes, h1, sieveUpTo_le_one (le_refl 1)]
    decide
  · rw [get_primes, h2, sieveUpTo_le_one (le_refl 1)]
    decide

theorem getD_replicate_zero {n : ℕ} (i : ℕ) :
    (List.replicate n (0 : ℚ)).getD i 0 = 0 := by
  rcases Nat.lt_or_ge i n with h | h
  · rw [List.getD_eq_getElem _ _ (by simpa using h), List.getElem_replicate]
  · rw [List.getD_eq_default _ _ (by simpa using h)]

theorem norm_zero_of_all_zero {N : ℕ} {v : Fin N → ℚ} (hv : ∀ i, v i = 0) :
    norm v = 0 := by
  rw [norm]
  have h : (∑ j, v j * v j : ℚ) = 0 := by simp [hv]
  rw [h]
  simp

theorem state_vector_zero_of_all_zero {N : ℕ} {v : Fin N → ℚ} (hv : ∀ i, v i = 0)
    (j : Fin N) : state_vector v j = 0 := by
  rw [state_vector, hv j]
  simp

theorem state_vector2_zero_of_all_zero {N : ℕ} {v : Fin N → ℚ} (hv : ∀ i, v i = 0)
    (j : Fin N) : state_vector2 v j = 0 := by
  rw [state_vector2, state_vector_zero_of_all_zero hv j]
  simp

theorem res_zero_of_all_zero {N : ℕ} {v : Fin N → ℚ} (hv : ∀ i, v i = 0)
    (k : Fin N) : res v k = 0 := by
  rw [res, qft_block]
  have h : ∀ j : Fin N, ((state_vector2 v j : ℝ) : ℂ) = 0 := by
    intro j
    rw [state_vector2_zero_of_all_zero hv j]
    simp
  simp [h]

end MillionaireScan

/-- C10: `get_primes` is total for every `n ≥ 0` (in particular the
embedded `p[:2]` assignment and the sieve loop are well defined for
`n = 0` and `n = 1`, matching the clamping slice semantics of the
source), and for every `n ≤ 2` it returns the all-zero vector of length
`n`; hence the zero-norm input of the downstream normalization is
reachable from the PRIME builder at small `n`. -/
theorem get_primes_total_and_degenerate (n : ℕ) :
    (MillionaireScan.get_primes n).length = n ∧
      (n ≤ 2 → MillionaireScan.get_primes n = List.replicate n 0 ∧
        MillionaireScan.norm
          (fun i : Fin n => (MillionaireScan.get_primes n).getD i 0) = 0) := by
  refine ⟨by simp [MillionaireScan.get_primes], fun hn => ?_⟩
  have hz := MillionaireScan.get_primes_replicate_of_le_two hn
  refine ⟨hz, MillionaireScan.norm_zero_of_all_zero fun i => ?_⟩
  rw [hz]
  exact MillionaireScan.getD_replicate_zero i

/-- Witness for C10 at `n = 2`. -/
theorem get_primes_total_and_degenerate_witness :
    (MillionaireScan.get_primes 2).length = 2 ∧
      ((2 : ℕ) ≤ 2 ∧ MillionaireScan.get_primes 2 = List.replicate 2 0 ∧
        MillionaireScan.norm
          (fun i : Fin 2 => (MillionaireScan.get_primes 2).getD i 0) = 0) :=
  ⟨(get_primes_total_and_degenerate 2).1,
    le_refl 2, (get_primes_total_and_degenerate 2).2 (le_refl 2)⟩

/-- C7 (supporting theorem for the refutation): on the zero-norm input
reachable as `get_primes 2`, the normalization of the source divides by
the zero norm with no error branch of its own: in the embedding (where
real division by zero is total) every state-vector entry is `0` and the
spectrum total is `0` rather than `1`, i.e. the stage silently yields a
degenerate state instead of surfacing a DivisionByZero condition. -/
theorem zero_vector_normalization_silent :
    MillionaireScan.norm
        (fun i : Fin 2 => (MillionaireScan.get_primes 2).getD i 0) = 0 ∧
      (∀ j, MillionaireScan.state_vector
        (fun i : Fin 2 => (MillionaireScan.get_primes 2).getD i 0) j = 0) ∧
      (∀ j, MillionaireScan.state_vector2
        (fun i : Fin 2 => (MillionaireScan.get_primes 2).getD i 0) j = 0) ∧
      ∑ k, MillionaireScan.res
        (fun i : Fin 2 => (MillionaireScan.get_primes 2).getD i 0) k = 0 := by
  have hv : ∀ i : Fin 2, (MillionaireScan.get_primes 2).getD i 0 = 0 := by
    intro i
    rw [MillionaireScan.get_primes_replicate_of_le_two (le_refl 2)]
    exact MillionaireScan.getD_replicate_zero i
  refine ⟨MillionaireScan.norm_zero_of_all_zero hv,
    MillionaireScan.state_vector_zero_of_all_zero hv,
    MillionaireScan.state_vector2_zero_of_all_zero hv, ?_⟩
  have hres := MillionaireScan.res_zero_of_all_zero hv
  rw [Fin.sum_univ_two, hres 0, hres 1, add_zero]

namespace MillionaireScan

theorem exp_entry_pow (N j k : ℕ) :
    Complex.exp (2 * Real.pi * Complex.I * ((j : ℂ) * (k : ℂ)) / N) =
      Complex.exp (2 * Real.pi * Complex.I / N) ^ (j * k) := by
  rw [← Complex.exp_nat_mul]
  congr 1
  push_cast
  ring

theorem exp_entry_conj (N j k : ℕ) :
    (starRingEnd ℂ) (Complex.exp (2 * Real.pi * Complex.I * ((j : ℂ) * (k : ℂ)) / N)) =
      (Complex.exp (2 * Real.pi * Complex.I * ((j : ℂ) * (k : ℂ)) / N))⁻¹ := by
  rw [← Complex.exp_conj, ← Complex.exp_neg]
  congr 1
  rw [map_div₀]
  simp only [map_mul, Complex.conj_I, Complex.conj_ofReal, map_ofNat, map_natCast]
  ring

theorem qft_row_orth {N : ℕ} (hN : N ≠ 0) (j i : Fin N) :
    ∑ k : Fin N,
        Complex.exp (2 * Real.pi * Complex.I * (((j : ℕ) : ℂ) * ((k : ℕ) : ℂ)) / N) *
          (starRingEnd ℂ)
            (Complex.exp (2 * Real.pi * Complex.I * (((i : ℕ) : ℂ) * ((k : ℕ) : ℂ)) / N)) =
      if j = i then (N : ℂ) else 0 := by
  set w : ℂ := Complex.exp (2 * Real.pi * Complex.I / N) with hw
  have hprim : IsPrimitiveRoot w N := Complex.isPrimitiveRoot_exp N hN
  have hw0 : w ≠ 0 := Complex.exp_ne_zero _
  have hterm : ∀ k : Fin N,
      Complex.exp (2 * Real.pi * Complex.I * (((j : ℕ) : ℂ) * ((k : ℕ) : ℂ)) / N) *
        (starRingEnd ℂ)
          (Complex.exp (2 * Real.pi * Complex.I * (((i : ℕ) : ℂ) * ((k : ℕ) : ℂ)) / N)) =
        (w ^ ((j : ℤ) - (i : ℤ))) ^ (k : ℕ) := by
    intro k
    rw [exp_entry_conj, exp_entry_pow, exp_entry_pow, ← hw]
    rw [← zpow_natCast w (j.val * k.val), ← zpow_natCast w (i.val * k.val), ← zpow_neg,
      ← zpow_add₀ hw0, ← zpow_natCast (w ^ ((j : ℤ) - (i : ℤ))), ← zpow_mul]
    congr 1
    push_cast
    ring
  rw [Finset.sum_congr rfl fun k _ => hterm k]
  by_cases hji : j = i
  · subst hji
    simp
  · rw [if_neg hji]
    have hz1 : w ^ ((j : ℤ) - (i : ℤ)) ≠ 1 := by
      intro h
      have hdvd : (N : ℤ) ∣ ((j : ℤ) - (i : ℤ)) := (hprim.zpow_eq_one_iff_dvd _).mp h
      have habs : |((j : ℤ) - (i : ℤ))| < (N : ℤ) := by
        rw [abs_lt]
        have h1 := i.isLt
        have h2 := j.isLt
        omega
      have h0 := Int.eq_zero_of_abs_lt_dvd hdvd habs
      apply hji
      apply Fin.ext
      omega
    rw [Fin.sum_univ_eq_sum_range (fun k => (w ^ ((j : ℤ) - (i : ℤ))) ^ k) N]
    rw [geom_sum_eq hz1 N]
    rw [← zpow_natCast (w ^ ((j : ℤ) - (i : ℤ))), ← zpow_mul]
    rw [show ((j : ℤ) - (i : ℤ)) * (N : ℤ) = (N : ℤ) * ((j : ℤ) - (i : ℤ)) by ring]
    rw [zpow_mul, zpow_natCast, hprim.pow_eq_one, one_zpow]
    simp

theorem sum_normSq_rows {N : ℕ} (hN : N ≠ 0) (u : Fin N → ℂ) :
    ∑ k : Fin N, Complex.normSq (∑ j : Fin N, u j *
        Complex.exp (2 * Real.pi * Complex.I * (((j : ℕ) : ℂ) * ((k : ℕ) : ℂ)) / N)) =
      N * ∑ j : Fin N, Complex.normSq (u j) := by
  have hC : (∑ k : Fin N, (Complex.normSq (∑ j : Fin N, u j *
        Complex.exp (2 * Real.pi * Complex.I * (((j : ℕ) : ℂ) * ((k : ℕ) : ℂ)) / N)) : ℂ)) =
      (N : ℂ) * ∑ j : Fin N, (Complex.normSq (u j) : ℂ) := by
    calc (∑ k : Fin N, (Complex.normSq (∑ j : Fin N, u j *
            Complex.exp (2 * Real.pi * Complex.I * (((j : ℕ) : ℂ) * ((k : ℕ) : ℂ)) / N)) : ℂ))
        = ∑ k : Fin N, (∑ j : Fin N, u j *
              Complex.exp (2 * Real.pi * Complex.I * (((j : ℕ) : ℂ) * ((k : ℕ) : ℂ)) / N)) *
            (starRingEnd ℂ) (∑ j : Fin N, u j *
              Complex.exp (2 * Real.pi * Complex.I * (((j : ℕ) : ℂ) * ((k : ℕ) : ℂ)) / N)) := by
          refine Finset.sum_congr rfl fun k _ => ?_
          rw [Complex.mul_conj]
      _ = ∑ k : Fin N, ∑ j : Fin N, ∑ i : Fin N,
            (u j * Complex.exp (2 * Real.pi * Complex.I * (((j : ℕ) : ℂ) * ((k : ℕ) : ℂ)) / N)) *
              ((starRingEnd ℂ) (u i) * (starRingEnd ℂ)
                (Complex.exp (2 * Real.pi * Complex.I * (((i : ℕ) : ℂ) * ((k : ℕ) : ℂ)) / N))) := by
          refine Finset.sum_congr rfl fun k _ => ?_
          rw [map_sum, Finset.sum_mul_sum]
          refine Finset.sum_congr rfl fun j _ => Finset.sum_congr rfl fun i _ => ?_
          rw [map_mul]
      _ = ∑ j : Fin N, ∑ i : Fin N, (u j * (starRingEnd ℂ) (u i)) *
            ∑ k : Fin N,
              Complex.exp (2 * Real.pi * Complex.I * (((j : ℕ) : ℂ) * ((k : ℕ) : ℂ)) / N) *
                (starRingEnd ℂ)
                  (Complex.exp (2 * Real.pi * Complex.I * (((i : ℕ) : ℂ) * ((k : ℕ) : ℂ)) / N)) := by
          rw [Finset.sum_comm]
          refine Finset.sum_congr rfl fun j _ => ?_
          rw [Finset.sum_comm]
          refine Finset.sum_congr rfl fun i _ => ?_
          rw [Finset.mul_sum]
          refine Finset.sum_congr rfl fun k _ => ?_
          ring
      _ = ∑ j : Fin N, (u j * (starRingEnd ℂ) (u j)) * (N : ℂ) := by
          refine Finset.sum_congr rfl fun j _ => ?_
          rw [Finset.sum_eq_single j]
          · rw [qft_row_orth hN j j, if_pos rfl]
          · intro i _ hij
            rw [qft_row_orth hN j i, if_neg fun h => hij h.symm, mul_zero]
          · intro h
            exact absurd (Finset.mem_univ j) h
      _ = (N : ℂ) * ∑ j : Fin N, (Complex.normSq (u j) : ℂ) := by
          rw [Finset.mul_sum]
          refine Finset.sum_congr rfl fun j _ => ?_
          rw [Complex.mul_conj]
          ring
  exact_mod_cast hC

theorem sum_normSq_qft_block {N : ℕ} (hN : N ≠ 0) (u : Fin N → ℂ) :
    ∑ k : Fin N, Complex.normSq (qft_block u k) =
      ∑ j : Fin N, Complex.normSq (u j) := by
  have hNpos : (0 : ℝ) < N := by
    exact_mod_cast Nat.pos_of_ne_zero hN
  have hsq : Complex.normSq ((Real.sqrt N : ℝ) : ℂ) = (N : ℝ) := by
    rw [Complex.normSq_ofReal, Real.mul_self_sqrt hNpos.le]
  calc ∑ k : Fin N, Complex.normSq (qft_block u k)
      = ∑ k : Fin N, Complex.normSq (∑ j : Fin N, u j *
          Complex.exp (2 * Real.pi * Complex.I * (((j : ℕ) : ℂ) * ((k : ℕ) : ℂ)) / N)) / N := by
        refine Finset.sum_congr rfl fun k _ => ?_
        rw [qft_block, Complex.normSq_div, hsq]
    _ = (∑ k : Fin N, Complex.normSq (∑ j : Fin N, u j *
          Complex.exp (2 * Real.pi * Complex.I * (((j : ℕ) : ℂ) * ((k : ℕ) : ℂ)) / N))) / N := by
        rw [Finset.sum_div]
    _ = (N * ∑ j : Fin N, Complex.normSq (u j)) / N := by
        rw [sum_normSq_rows hN u]
    _ = ∑ j : Fin N, Complex.normSq (u j) := by
        rw [mul_div_assoc, mul_comm, div_mul_cancel₀ _ (ne_of_gt hNpos)]

theorem sum_sq_pos_of_nonzero {N : ℕ} {v : Fin N → ℚ} (hv : ∃ i, v i ≠ 0) :
    (0 : ℚ) < ∑ j, v j * v j := by
  obtain ⟨i, hi⟩ := hv
  refine Finset.sum_pos' (fun j _ => mul_self_nonneg (v j)) ⟨i, Finset.mem_univ i, ?_⟩
  exact mul_self_pos.mpr hi

theorem sum_sq_state_vector {N : ℕ} {v : Fin N → ℚ} (hv : ∃ i, v i ≠ 0) :
    ∑ j, state_vector v j ^ 2 = 1 := by
  have hS : (0 : ℚ) < ∑ j, v j * v j := sum_sq_pos_of_nonzero hv
  have hSR : (0 : ℝ) < ((∑ j, v j * v j : ℚ) : ℝ) := by exact_mod_cast hS
  have hsv : ∀ j, state_vector v j ^ 2 = (v j : ℝ) ^ 2 / ((∑ j, v j * v j : ℚ) : ℝ) := by
    intro j
    rw [state_vector, norm, div_pow, Real.sq_sqrt hSR.le]
  rw [Finset.sum_congr rfl fun j _ => hsv j, ← Finset.sum_div]
  rw [show (∑ j, ((v j : ℝ)) ^ 2) = ((∑ j, v j * v j : ℚ) : ℝ) by
    push_cast
    exact Finset.sum_congr rfl fun j _ => pow_two _]
  exact div_self (ne_of_gt hSR)

theorem state_vector2_eq {N : ℕ} {v : Fin N → ℚ} (hv : ∃ i, v i ≠ 0) :
    state_vector2 v = state_vector v := by
  funext j
  rw [state_vector2]
  have habs : (∑ i, |state_vector v i| ^ 2) = 1 := by
    rw [Finset.sum_congr rfl fun i _ => sq_abs (state_vector v i)]
    exact sum_sq_state_vector hv
  rw [habs, Real.sqrt_one, div_one]

theorem sum_res_of_nonzero {N : ℕ} (hN : N ≠ 0) {v : Fin N → ℚ}
    (hv : ∃ i, v i ≠ 0) : ∑ k, res v k = 1 := by
  calc ∑ k, res v k
      = ∑ j : Fin N, Complex.normSq ((state_vector2 v j : ℝ) : ℂ) := by
        exact sum_normSq_qft_block hN fun j => ((state_vector2 v j : ℝ) : ℂ)
    _ = ∑ j, state_vector v j ^ 2 := by
        refine Finset.sum_congr rfl fun j _ => ?_
        rw [state_vector2_eq hv, Complex.normSq_ofReal, sq]
    _ = 1 := sum_sq_state_vector hv

theorem res_nonneg {N : ℕ} (v : Fin N → ℚ) (k : Fin N) : 0 ≤ res v k :=
  Complex.normSq_nonneg _

end MillionaireScan

/-- C6: for every indicator vector of length `N = 2^k` with at least one
nonzero entry, the spectral pipeline (normalize to unit Euclidean norm,
apply the non-bit-reversed Fourier transform, take elementwise squared
magnitudes) produces a spectrum whose entries are all non-negative and
whose sum is within `1e-6` of `1`, because the transform is unitary (in
the exact embedding the sum is exactly `1`); this holds for the engine
copy of both scripts. -/
theorem spectrum_sums_to_one (k : ℕ) (v : Fin (2 ^ k) → ℚ)
    (hind : ∀ i, v i = 0 ∨ v i = 1) (hnz : ∃ i, v i ≠ 0) :
    (∀ j, 0 ≤ MillionaireScan.res v j) ∧
      |(∑ j, MillionaireScan.res v j) - 1| ≤ 1 / 1000000 ∧
      (∀ j, 0 ≤ JinxSquare.res v j) ∧
      |(∑ j, JinxSquare.res v j) - 1| ≤ 1 / 1000000 := by
  have hN : (2 : ℕ) ^ k ≠ 0 := pow_ne_zero k (by norm_num)
  have hsum : ∑ j, MillionaireScan.res v j = 1 :=
    MillionaireScan.sum_res_of_nonzero hN hnz
  have hJM : JinxSquare.res v = MillionaireScan.res v := rfl
  refine ⟨MillionaireScan.res_nonneg v, by rw [hsum]; norm_num, ?_, ?_⟩
  · rw [hJM]
    exact MillionaireScan.res_nonneg v
  · rw [hJM, hsum]
    norm_num

/-- Witness for C6 at `k = 0` and the singleton indicator vector `(1)`. -/
theorem spectrum_sums_to_one_witness :
    (∀ i : Fin (2 ^ 0), (fun _ : Fin (2 ^ 0) => (1 : ℚ)) i = 0 ∨
        (fun _ : Fin (2 ^ 0) => (1 : ℚ)) i = 1) ∧
      (∃ i : Fin (2 ^ 0), (fun _ : Fin (2 ^ 0) => (1 : ℚ)) i ≠ 0) ∧
      |(∑ j, MillionaireScan.res (fun _ : Fin (2 ^ 0) => (1 : ℚ)) j) - 1| ≤ 1 / 1000000 :=
  ⟨fun _ => Or.inr rfl, ⟨⟨0, by norm_num⟩, by norm_num⟩,
    (spectrum_sums_to_one 0 (fun _ => (1 : ℚ)) (fun _ => Or.inr rfl)
      ⟨⟨0, by norm_num⟩, by norm_num⟩).2.1⟩

namespace DiagDevice

theorem sqrt_n1_lo :
    (10 ^ 35 + 19500000000000000 - 19013 / 10 ^ 7 : ℝ) <
      Real.sqrt ((((10 ^ 20 + 39) * (10 ^ 50 + 151) : ℤ)) : ℝ) := by
  rw [Real.lt_sqrt (by norm_num)]
  push_cast
  norm_num

theorem sqrt_n1_hi :
    Real.sqrt ((((10 ^ 20 + 39) * (10 ^ 50 + 151) : ℤ)) : ℝ) <
      (10 ^ 35 + 19500000000000000 - 19012 / 10 ^ 7 : ℝ) := by
  rw [Real.sqrt_lt' (by norm_num)]
  push_cast
  norm_num

theorem phase_n1_bounds :
    (19012 / 10 ^ 7 : ℝ) < phaseOffset ((10 ^ 20 + 39) * (10 ^ 50 + 151)) ∧
      phaseOffset ((10 ^ 20 + 39) * (10 ^ 50 + 151)) < (19013 / 10 ^ 7 : ℝ) := by
  have hlo := sqrt_n1_lo
  have hhi := sqrt_n1_hi
  set r : ℝ := Real.sqrt ((((10 ^ 20 + 39) * (10 ^ 50 + 151) : ℤ)) : ℝ) with hr
  have hr0 : 0 ≤ r := Real.sqrt_nonneg _
  have hfloor : roundHalfUp r = (10 ^ 35 + 19500000000000000 : ℤ) := by
    rw [roundHalfUp, if_pos hr0, Int.floor_eq_iff]
    constructor
    · push_cast
      linarith
    · push_cast
      linarith
  have hoff : phaseOffset ((10 ^ 20 + 39) * (10 ^ 50 + 151)) =
      ((10 ^ 35 + 19500000000000000 : ℤ) : ℝ) - r := by
    rw [phaseOffset]
    rw [show Real.sqrt (((10 ^ 20 + 39) * (10 ^ 50 + 151) : ℤ) : ℝ) = r from rfl]
    rw [hfloor]
    rw [abs_of_nonpos (by push_cast; linarith)]
    ring
  rw [hoff]
  constructor
  · push_cast
    linarith
  · push_cast
    linarith

theorem sqrt_n2_lo :
    (10 ^ 35 + 8 - 1 / 10 ^ 35 : ℝ) <
      Real.sqrt ((((10 ^ 35 + 7) * (10 ^ 35 + 9) : ℤ)) : ℝ) := by
  rw [Real.lt_sqrt (by norm_num)]
  push_cast
  norm_num

theorem sqrt_n2_hi :
    Real.sqrt ((((10 ^ 35 + 7) * (10 ^ 35 + 9) : ℤ)) : ℝ) <
      (10 ^ 35 + 8 : ℝ) := by
  rw [Real.sqrt_lt' (by norm_num)]
  push_cast
  norm_num

theorem phase_n2_bounds :
    0 ≤ phaseOffset ((10 ^ 35 + 7) * (10 ^ 35 + 9)) ∧
      phaseOffset ((10 ^ 35 + 7) * (10 ^ 35 + 9)) < (1 / 10 ^ 35 : ℝ) := by
  have hlo := sqrt_n2_lo
  have hhi := sqrt_n2_hi
  set r : ℝ := Real.sqrt ((((10 ^ 35 + 7) * (10 ^ 35 + 9) : ℤ)) : ℝ) with hr
  have hr0 : 0 ≤ r := Real.sqrt_nonneg _
  have hfloor : roundHalfUp r = (10 ^ 35 + 8 : ℤ) := by
    rw [roundHalfUp, if_pos hr0, Int.floor_eq_iff]
    constructor
    · push_cast
      linarith
    · push_cast
      linarith
  have hoff : phaseOffset ((10 ^ 35 + 7) * (10 ^ 35 + 9)) =
      ((10 ^ 35 + 8 : ℤ) : ℝ) - r := by
    rw [phaseOffset]
    rw [show Real.sqrt (((10 ^ 35 + 7) * (10 ^ 35 + 9) : ℤ) : ℝ) = r from rfl]
    rw [hfloor]
    rw [abs_of_nonpos (by push_cast; linarith)]
    ring
  rw [hoff]
  constructor
  · push_cast
    linarith
  · push_cast
    linarith

theorem cos_gamma5_n1_ub :
    Real.cos (32.935061 * phaseOffset ((10 ^ 20 + 39) * (10 ^ 50 + 151))) ≤ 1 - 0.00195 := by
  obtain ⟨hlo, hhi⟩ := phase_n1_bounds
  set t : ℝ := phaseOffset ((10 ^ 20 + 39) * (10 ^ 50 + 151)) with ht
  have hx_lo : (0.0626161 : ℝ) < 32.935061 * t := by
    have h1 := mul_lt_mul_of_pos_left hlo (show (0:ℝ) < 32.935061 by norm_num)
    have h2 : (0.0626161 : ℝ) ≤ 32.935061 * (19012 / 10 ^ 7 : ℝ) := by norm_num
    linarith
  have hx_hi : 32.935061 * t < (0.06262 : ℝ) := by
    have h1 := mul_lt_mul_of_pos_left hhi (show (0:ℝ) < 32.935061 by norm_num)
    have h2 : 32.935061 * (19013 / 10 ^ 7 : ℝ) ≤ 0.06262 := by norm_num
    linarith
  have hxpos : (0:ℝ) < 32.935061 * t := by linarith
  have habs : |32.935061 * t| ≤ 1 := by
    rw [abs_of_pos hxpos]
    linarith
  have hb := Real.cos_bound habs
  have hcos2 : Real.cos (32.935061 * t) ≤
      1 - (32.935061 * t) ^ 2 / 2 + (32.935061 * t) ^ 4 * (5 / 96) := by
    have h := (abs_le.mp hb).2
    rw [abs_of_pos hxpos] at h
    linarith
  have hx2 : (0.0626161 : ℝ) ^ 2 ≤ (32.935061 * t) ^ 2 :=
    pow_le_pow_left₀ (by norm_num) (le_of_lt hx_lo) 2
  have hx4 : (32.935061 * t) ^ 4 ≤ (0.06262 : ℝ) ^ 4 :=
    pow_le_pow_left₀ (le_of_lt hxpos) (le_of_lt hx_hi) 4
  calc Real.cos (32.935061 * t)
      ≤ 1 - (32.935061 * t) ^ 2 / 2 + (32.935061 * t) ^ 4 * (5 / 96) := hcos2
    _ ≤ 1 - (0.0626161 : ℝ) ^ 2 / 2 + (0.06262 : ℝ) ^ 4 * (5 / 96) := by linarith
    _ ≤ 1 - 0.00195 := by norm_num

theorem cos_terms_n2_lb (g : ℝ) (hg0 : 0 ≤ g) (hg : g ≤ 33) :
    1 - 1 / 10 ^ 66 ≤ Real.cos (g * phaseOffset ((10 ^ 35 + 7) * (10 ^ 35 + 9))) := by
  obtain ⟨h0, hhi⟩ := phase_n2_bounds
  set t : ℝ := phaseOffset ((10 ^ 35 + 7) * (10 ^ 35 + 9)) with ht
  have hx0 : 0 ≤ g * t := mul_nonneg hg0 h0
  have hxhi : g * t ≤ (33 / 10 ^ 35 : ℝ) := by
    have h := mul_le_mul hg (le_of_lt hhi) h0 (by norm_num : (0:ℝ) ≤ 33)
    calc g * t ≤ 33 * (1 / 10 ^ 35 : ℝ) := h
      _ = (33 / 10 ^ 35 : ℝ) := by ring
  refine le_trans ?_ Real.one_sub_sq_div_two_le_cos
  have hsq : (g * t) ^ 2 ≤ (33 / 10 ^ 35 : ℝ) ^ 2 := pow_le_pow_left₀ hx0 hxhi 2
  have hnum : (33 / 10 ^ 35 : ℝ) ^ 2 / 2 ≤ 1 / 10 ^ 66 := by norm_num
  linarith

/-- C2: the resonance score of `n2 = (10^35 + 7) * (10^35 + 9)` (a
semiprime with factor gap 2) is strictly greater than the resonance score
of `n1 = (10^20 + 39) * (10^50 + 151)` (a semiprime with factor gap about
`10^50`): on these two concrete inputs the score is monotone in factor
proximity. -/
theorem close_factors_higher_score :
    DiagDevice.compute_spectral_coherence ((10 ^ 20 + 39) * (10 ^ 50 + 151)) <
      DiagDevice.compute_spectral_coherence ((10 ^ 35 + 7) * (10 ^ 35 + 9)) := by
  rw [DiagDevice.score_eq_of_nonneg (show (0:ℤ) ≤ (10 ^ 20 + 39) * (10 ^ 50 + 151) by norm_num)]
  rw [DiagDevice.score_eq_of_nonneg (show (0:ℤ) ≤ (10 ^ 35 + 7) * (10 ^ 35 + 9) by norm_num)]
  have h1 := Real.cos_le_one (14.134725 * DiagDevice.phaseOffset ((10 ^ 20 + 39) * (10 ^ 50 + 151)))
  have h2 := Real.cos_le_one (21.022040 * DiagDevice.phaseOffset ((10 ^ 20 + 39) * (10 ^ 50 + 151)))
  have h3 := Real.cos_le_one (25.010857 * DiagDevice.phaseOffset ((10 ^ 20 + 39) * (10 ^ 50 + 151)))
  have h4 := Real.cos_le_one (30.424876 * DiagDevice.phaseOffset ((10 ^ 20 + 39) * (10 ^ 50 + 151)))
  have h5 := DiagDevice.cos_gamma5_n1_ub
  have g1 := DiagDevice.cos_terms_n2_lb 14.134725 (by norm_num) (by norm_num)
  have g2 := DiagDevice.cos_terms_n2_lb 21.022040 (by norm_num) (by norm_num)
  have g3 := DiagDevice.cos_terms_n2_lb 25.010857 (by norm_num) (by norm_num)
  have g4 := DiagDevice.cos_terms_n2_lb 30.424876 (by norm_num) (by norm_num)
  have g5 := DiagDevice.cos_terms_n2_lb 32.935061 (by norm_num) (by norm_num)
  have hnum : ((4 : ℝ) + (1 - 0.00195)) / 5 < (5 * (1 - 1 / 10 ^ 66)) / 5 := by norm_num
  linarith

end DiagDevice
